import Mathlib

/-!
Shallow embedding of the triangle-mesh core of the `cgp3-soln` repository
(`src/tesselate/mesh.h`) and verification of its specification claims.

Positions and position vectors are modelled over `ℚ` (the C++ `float`
components, kept exact); unit normals, whose computation divides by a
square root, are modelled over `ℝ`.
-/

/-- A 3D point (`cgp::Point`): three scalar components.
Modelled from the spec: `vecpnt.h` is absent from the sources; the spec
describes Point as a 3-component float triple (affine position). -/
@[ext]
structure Pnt where
  x : ℚ
  y : ℚ
  z : ℚ
deriving DecidableEq, Repr

/-- A 3D vector (`cgp::Vector`): three scalar components.
Modelled from the spec: `vecpnt.h` is absent from the sources; the spec
describes Vector as a 3-component float triple (free direction). -/
@[ext]
structure Vec where
  x : ℚ
  y : ℚ
  z : ℚ
deriving DecidableEq, Repr

/-- A 3D vector with real components, used for normalized normals
(normalization divides by a real square root). -/
@[ext]
structure RVec where
  x : ℝ
  y : ℝ
  z : ℝ

/-- The origin, used as the default for out-of-range vertex lookups. -/
def pzero : Pnt := ⟨0, 0, 0⟩

/-- `cgp::Vector::diff(p, q)`: the vector from `q` to `p`, i.e. `p - q`.
Modelled from the spec: "difference" of points; `deriveFaceNorms` uses
`(p3-p2)` for `a.diff(p3, p2)`. -/
def vdiff (p q : Pnt) : Vec :=
  ⟨p.x - q.x, p.y - q.y, p.z - q.z⟩

/-- `cgp::Vector::cross(a, b)`: the cross product `a × b`.
Modelled from the spec: "cross" on 3-component vectors (standard formula). -/
def vcross (a b : Vec) : Vec :=
  ⟨a.y * b.z - a.z * b.y, a.z * b.x - a.x * b.z, a.x * b.y - a.y * b.x⟩

/-- `cgp::Vector::mult(s)`: scalar multiplication.
Modelled from the spec: "scalar multiply". -/
def vmult (s : ℚ) (v : Vec) : Vec :=
  ⟨s * v.x, s * v.y, s * v.z⟩

/-- Unary negation of a vector (the spec formula's `-(a × b)`). -/
def vneg (v : Vec) : Vec :=
  ⟨-v.x, -v.y, -v.z⟩

/-- Squared Euclidean length of a vector. -/
def normSq (v : Vec) : ℚ :=
  v.x * v.x + v.y * v.y + v.z * v.z

/-- Euclidean length of a vector, as a real. -/
noncomputable def vlen (v : Vec) : ℝ :=
  Real.sqrt ((normSq v : ℚ) : ℝ)

/-- `cgp::Vector::normalize()`: divide each component by the length.
Modelled from the spec: "normalize" on 3-component vectors. -/
noncomputable def vnormalize (v : Vec) : RVec :=
  ⟨(v.x : ℝ) / vlen v, (v.y : ℝ) / vlen v, (v.z : ℝ) / vlen v⟩

/-- Negation of a real vector. -/
def rvNeg (n : RVec) : RVec :=
  ⟨-n.x, -n.y, -n.z⟩

/-- Tolerance used by the tolerance-based equality on points and vectors.
Modelled from the spec: equality of float triples is "tolerance-based". -/
def tol : ℚ := 1 / 1000000

/-- Absolute value on the rationals, written to evaluate by kernel
reduction. -/
def qabs (q : ℚ) : ℚ :=
  if q < 0 then -q else q

/-- Tolerance-based equality on points (`cgp::Point::operator==`).
Modelled from the spec: positions compare equal within tolerance. -/
def pntEq (p q : Pnt) : Prop :=
  qabs (p.x - q.x) < tol ∧ qabs (p.y - q.y) < tol ∧ qabs (p.z - q.z) < tol

instance (p q : Pnt) : Decidable (pntEq p q) := by
  unfold pntEq
  infer_instance

/-- Tolerance-based equality on real vectors (`cgp::Vector::operator==`,
applied to normalized normals in `Triangle::deriveNormal`).
Modelled from the spec: vector equality is "tolerance-based". -/
def rvecEq (a b : RVec) : Prop :=
  |a.x - b.x| < (tol : ℝ) ∧ |a.y - b.y| < (tol : ℝ) ∧ |a.z - b.z| < (tol : ℝ)

/-- A triangle (`struct Triangle`): three indices into a vertex list.
The cached normal field is not modelled; every claim recomputes normals
from positions. -/
structure Tri where
  v : Fin 3 → ℕ

/-- The candidate face normal computed inside `Triangle::deriveNormal`
(mesh.h lines 42-59), composed exactly as the source does:
`a.diff(p3, p2); b.diff(p1, p2); normal.cross(a, b); normal.mult(-1);
normal.normalize();` with `p1, p2, p3` the positions of `v[0], v[1], v[2]`. -/
noncomputable def candAt (p1 p2 p3 : Pnt) : RVec :=
  vnormalize (vmult (-1) (vcross (vdiff p3 p2) (vdiff p1 p2)))

/-- The candidate normal of `Triangle::deriveNormal` at the triangle's own
vertex positions (out-of-range indices default to the origin). -/
noncomputable def deriveCandidate (t : Tri) (vts : List Pnt) : RVec :=
  candAt (vts.getD (t.v 0) pzero) (vts.getD (t.v 1) pzero) (vts.getD (t.v 2) pzero)

/-- The face normal as the spec phrases it: "compute the normal from
`(p3-p2) × (p1-p2)`, negate it, normalize", at explicit positions. -/
noncomputable def specNormal (p1 p2 p3 : Pnt) : RVec :=
  vnormalize (vneg (vcross (vdiff p3 p2) (vdiff p1 p2)))

open Classical in
/-- `Triangle::deriveNormal` (mesh.h lines 39-75): compute the candidate
normal, then append it to `normals` unless some entry already equals it
under the tolerance-based vector equality. -/
noncomputable def deriveNormal (t : Tri) (normals : List RVec) (vts : List Pnt) :
    List RVec :=
  if ∃ n ∈ normals, rvecEq n (deriveCandidate t vts) then normals
  else normals ++ [deriveCandidate t vts]

/-- Cyclic rotation of a triangle's vertex indices:
`(v[0], v[1], v[2]) ↦ (v[1], v[2], v[0])`. -/
def triRot (t : Tri) : Tri :=
  ⟨![t.v 1, t.v 2, t.v 0]⟩

/-- Winding reversal of a triangle's vertex indices:
`(v[0], v[1], v[2]) ↦ (v[2], v[1], v[0])`. -/
def triRev (t : Tri) : Tri :=
  ⟨![t.v 2, t.v 1, t.v 0]⟩

/-- The triangle mesh (`class Mesh`), restricted to the geometric state the
claims concern: vertex list, per-vertex normals, triangle list.  The render,
colour and transform fields of the source play no part in any claim. -/
structure Mesh where
  verts : List Pnt
  norms : List RVec
  tris : List Tri

/-- `Mesh::empty` (mesh.h line 346): `return verts.empty();`. -/
def Mesh.empty (m : Mesh) : Bool :=
  m.verts.isEmpty

/-- The twelve triangles pushed by `Mesh::setCubeTriangles`
(mesh.h lines 384-416), in push order. -/
def cubeTris : List Tri :=
  [⟨![1, 2, 3]⟩, ⟨![3, 4, 1]⟩,
   ⟨![4, 3, 5]⟩, ⟨![5, 6, 4]⟩,
   ⟨![6, 5, 7]⟩, ⟨![7, 8, 6]⟩,
   ⟨![8, 7, 2]⟩, ⟨![2, 1, 8]⟩,
   ⟨![8, 1, 4]⟩, ⟨![4, 6, 8]⟩,
   ⟨![2, 7, 5]⟩, ⟨![5, 3, 2]⟩]

/-- `Mesh::setCubeTriangles` (mesh.h lines 384-416): clear the triangle
list, then push the twelve hard-coded cube triangles. -/
def Mesh.setCubeTriangles (m : Mesh) : Mesh :=
  { m with tris := cubeTris }

/-- `Triangle::vertexFound` (mesh.h lines 32-37): does the triangle
reference the given vertex index. -/
def Tri.vertexFound (t : Tri) (vertex : ℕ) : Bool :=
  vertex == t.v 0 || vertex == t.v 1 || vertex == t.v 2

/-- Index of the first entry of `kept` tolerance-equal to `p`, if any.
Models the duplicate lookup of `Mesh::findVert`/`Mesh::hashVert`. -/
def firstMatch : List Pnt → Pnt → Option ℕ
  | [], _ => none
  | q :: rest, p => if pntEq q p then some 0 else (firstMatch rest p).map (· + 1)

/-- One welding step: either remap the point to the first tolerance-equal
kept vertex, or keep it as a new canonical vertex. The state holds the
compacted vertex list and the old-index to new-index remap table. -/
def weldStep (acc : List Pnt × List ℕ) (p : Pnt) : List Pnt × List ℕ :=
  match firstMatch acc.1 p with
  | some j => (acc.1, acc.2 ++ [j])
  | none => (acc.1 ++ [p], acc.2 ++ [acc.1.length])

/-- Compact a vertex list by tolerance equality: first occurrence becomes
canonical; returns the compacted list and the remap table. -/
def weld (vs : List Pnt) : List Pnt × List ℕ :=
  vs.foldl weldStep ([], [])

/-- Modelled from the spec: the body of `Mesh::mergeVerts` is absent from
`src/` (mesh.h line 293 is only its declaration). Spec section 4.1:
deduplicate the vertex list by tolerance equality with the first
occurrence as canonical index, and rewrite every triangle index through
the remap table; the spatial-hash bucketing is a lookup accelerator for
this search and is modelled as the exhaustive first-match search it
accelerates. Triangle order and winding are untouched. -/
def Mesh.mergeVerts (m : Mesh) : Mesh :=
  { verts := (weld m.verts).1,
    norms := m.norms,
    tris := m.tris.map fun t => ⟨fun i => (weld m.verts).2.getD (t.v i) 0⟩ }

/-- The three directed edges of a triangle, in winding order. -/
def triEdges (t : Tri) : List (ℕ × ℕ) :=
  [(t.v 0, t.v 1), (t.v 1, t.v 2), (t.v 2, t.v 0)]

/-- Every directed (triangle, edge) traversal of the mesh. -/
def dirEdges (m : Mesh) : List (ℕ × ℕ) :=
  (m.tris.map triEdges).flatten

/-- Do two directed edges index the same vertices, in either direction?
Models the match test of `Mesh::sameEdge` (declaration only, mesh.h
lines 316-324). -/
def sameUndir (e f : ℕ × ℕ) : Bool :=
  (e.1 == f.1 && e.2 == f.2) || (e.1 == f.2 && e.2 == f.1)

/-- Do two directed edges index the same vertices in opposite directions?
Models the `opposite` flag of `Mesh::sameEdge`. -/
def oppDir (e f : ℕ × ℕ) : Bool :=
  e.1 == f.2 && e.2 == f.1

/-- Number of (triangle, edge) traversals of the mesh lying on the same
undirected edge as `e`. -/
def incidences (m : Mesh) (e : ℕ × ℕ) : ℕ :=
  ((dirEdges m).filter fun f => sameUndir e f).length

/-- Number of (triangle, edge) traversals of the mesh running opposite
to `e`. -/
def oppIncidences (m : Mesh) (e : ℕ × ℕ) : ℕ :=
  ((dirEdges m).filter fun f => oppDir e f).length

/-- Modelled from the spec: the body of `Mesh::manifoldValidity` is absent
from `src/` (mesh.h line 514 is only its declaration). Spec section 4.4:
the mesh is a closed two-manifold iff every edge is incident to exactly
two (triangle, edge) traversals and those two run in opposite directions,
checked with the `sameEdge`-style index comparisons above. -/
def Mesh.manifoldValidity (m : Mesh) : Bool :=
  (dirEdges m).all fun e => incidences m e == 2 && oppIncidences m e == 1

/-- The other two corners of `t`, for each corner equal to `i`: the
vertices sharing a triangle edge with vertex `i` inside `t`. -/
def triNbrs (t : Tri) (i : ℕ) : List ℕ :=
  (if t.v 0 = i then [t.v 1, t.v 2] else []) ++
  (if t.v 1 = i then [t.v 0, t.v 2] else []) ++
  (if t.v 2 = i then [t.v 0, t.v 1] else [])

/-- The distinct vertex indices directly edge-connected to vertex `i`. -/
def nbrs (m : Mesh) (i : ℕ) : List ℕ :=
  ((m.tris.map fun t => triNbrs t i).flatten).dedup

/-- Componentwise point addition. -/
def padd (p q : Pnt) : Pnt :=
  ⟨p.x + q.x, p.y + q.y, p.z + q.z⟩

/-- Componentwise point difference. -/
def psub (p q : Pnt) : Pnt :=
  ⟨p.x - q.x, p.y - q.y, p.z - q.z⟩

/-- Componentwise scalar multiple of a point. -/
def psmul (s : ℚ) (p : Pnt) : Pnt :=
  ⟨s * p.x, s * p.y, s * p.z⟩

/-- Sum of a list of points. -/
def psum (l : List Pnt) : Pnt :=
  l.foldr padd pzero

/-- The centroid (average position) of the vertices indexed by `ns`. -/
def centroid (vs : List Pnt) (ns : List ℕ) : Pnt :=
  psmul (1 / (ns.length : ℚ)) (psum (ns.map fun j => vs.getD j pzero))

/-- Modelled from the spec: one iteration of `Mesh::laplacianSmooth`
(body absent from `src/`, mesh.h line 464 is only the declaration). Spec
section 4.5: move every vertex toward the centroid of its directly
edge-connected neighbours by `rate`, with all updates computed from the
positions the iteration started with (simultaneous update); topology and
vertex count are untouched. -/
def smoothStep (rate : ℚ) (m : Mesh) : Mesh :=
  { verts := (List.range m.verts.length).map fun i =>
      padd (m.verts.getD i pzero)
        (psmul rate (psub (centroid m.verts (nbrs m i)) (m.verts.getD i pzero))),
    norms := m.norms,
    tris := m.tris }

/-- Modelled from the spec: `Mesh::laplacianSmooth` repeats the
simultaneous smoothing step for the requested iteration count. -/
def Mesh.laplacianSmooth (m : Mesh) : ℕ → ℚ → Mesh
  | 0, _ => m
  | n + 1, rate => (smoothStep rate m).laplacianSmooth n rate

/-- A voxel volume (`class VoxelVolume`, external collaborator per spec
section 6): grid dimensions plus a per-cell occupancy oracle. -/
structure VoxelVolume where
  xdim : ℕ
  ydim : ℕ
  zdim : ℕ
  occ : ℕ → ℕ → ℕ → Bool

/-- Occupancy query, `false` outside the grid bounds. -/
def VoxelVolume.occupied (vox : VoxelVolume) (x y z : ℤ) : Bool :=
  0 ≤ x && x < (vox.xdim : ℤ) && 0 ≤ y && y < (vox.ydim : ℤ) &&
  0 ≤ z && z < (vox.zdim : ℤ) && vox.occ x.toNat y.toNat z.toNat

/-- The two triangles of a quad face, wound `a b c` / `a c d`. -/
def quadTris (a b c d : Pnt) : List (Pnt × Pnt × Pnt) :=
  [(a, b, c), (a, c, d)]

/-- Corner `(i, j, k)` of the unit cell at grid position `(x, y, z)`. -/
def cellCorner (x y z i j k : ℕ) : Pnt :=
  ⟨((x + i : ℕ) : ℚ), ((y + j : ℕ) : ℚ), ((z + k : ℕ) : ℚ)⟩

/-- The two triangles of face `f` (0..5 = +x, -x, +y, -y, +z, -z) of the
cell at `(x, y, z)`, with outward counterclockwise winding. -/
def faceTris (x y z : ℕ) (f : ℕ) : List (Pnt × Pnt × Pnt) :=
  let c := cellCorner x y z
  if f = 0 then quadTris (c 1 0 0) (c 1 1 0) (c 1 1 1) (c 1 0 1)
  else if f = 1 then quadTris (c 0 0 0) (c 0 0 1) (c 0 1 1) (c 0 1 0)
  else if f = 2 then quadTris (c 0 1 0) (c 0 1 1) (c 1 1 1) (c 1 1 0)
  else if f = 3 then quadTris (c 0 0 0) (c 1 0 0) (c 1 0 1) (c 0 0 1)
  else if f = 4 then quadTris (c 0 0 1) (c 1 0 1) (c 1 1 1) (c 0 1 1)
  else quadTris (c 0 0 0) (c 0 1 0) (c 1 1 0) (c 1 0 0)

/-- Neighbour offset of face `f`, same order as `faceTris`. -/
def faceDelta (f : ℕ) : ℤ × ℤ × ℤ :=
  [(1, 0, 0), (-1, 0, 0), (0, 1, 0), (0, -1, 0), (0, 0, 1), (0, 0, -1)].getD f (0, 0, 0)

/-- Boundary triangles of the occupied cell at `(x, y, z)`: two per face
whose neighbouring cell is unoccupied (or outside the grid). -/
def cellFaces (vox : VoxelVolume) (x y z : ℕ) : List (Pnt × Pnt × Pnt) :=
  ((List.range 6).map fun f =>
    let d := faceDelta f
    if vox.occupied ((x : ℤ) + d.1) ((y : ℤ) + d.2.1) ((z : ℤ) + d.2.2) then []
    else faceTris x y z f).flatten

/-- All boundary triangles of the volume, cell by cell in grid order. -/
def mcTriples (vox : VoxelVolume) : List (Pnt × Pnt × Pnt) :=
  ((List.range vox.xdim).map fun x =>
    ((List.range vox.ydim).map fun y =>
      ((List.range vox.zdim).map fun z =>
        if vox.occ x y z then cellFaces vox x y z else []).flatten).flatten).flatten

/-- Modelled from the spec: the body of `Mesh::marchingCubes` is absent
from `src/` (mesh.h line 457 is only its declaration). Spec sections
4.3 and 8: emit, for every occupied cell, triangles covering the boundary
toward unoccupied space, with outward-facing winding and binary
(non-interpolated) vertex placement at cell corners; every emitted
triangle gets its own fresh vertices (no deduplication at emission time;
`mergeVerts` afterwards welds shared cell boundaries). -/
def Mesh.marchingCubes (vox : VoxelVolume) : Mesh :=
  { verts := ((mcTriples vox).map fun pqr => [pqr.1, pqr.2.1, pqr.2.2]).flatten,
    norms := [],
    tris := (List.range (mcTriples vox).length).map fun i =>
      ⟨![3 * i, 3 * i + 1, 3 * i + 2]⟩ }

/-- The 3x3x3 voxel volume whose centre cell alone is occupied. -/
def vox3 : VoxelVolume :=
  ⟨3, 3, 3, fun x y z => x == 1 && y == 1 && z == 1⟩

/-- Little-endian value of a byte list. -/
def leNat : List ℕ → ℕ
  | [] => 0
  | b :: rest => b % 256 + 256 * leNat rest

/-- Modelled from the spec: IEEE-754 float decoding is abstracted to the
little-endian byte value cast into the scalar type; the claims under test
concern STL framing and failure behaviour, not float semantics. -/
def decodeScalar (bs : List ℕ) : ℚ :=
  (leNat bs : ℚ)

/-- Decode a 12-byte vertex record: three 4-byte little-endian scalars. -/
def decodePnt (bs : List ℕ) : Pnt :=
  ⟨decodeScalar (bs.take 4), decodeScalar ((bs.drop 4).take 4),
   decodeScalar ((bs.drop 8).take 4)⟩

/-- The three vertices of one 50-byte STL triangle record: skip the
12 normal bytes, read three 12-byte vertices; the trailing 2 attribute
bytes are ignored. -/
def decodeTriVerts (rec50 : List ℕ) : List Pnt :=
  [decodePnt ((rec50.drop 12).take 12), decodePnt ((rec50.drop 24).take 12),
   decodePnt ((rec50.drop 36).take 12)]

/-- The per-triangle vertex copies stored in the STL payload `rest`. -/
def stlVerts (rest : List ℕ) (n : ℕ) : List Pnt :=
  ((List.range n).map fun i => decodeTriVerts ((rest.drop (50 * i)).take 50)).flatten

/-- Modelled from the spec: the body of `Mesh::readSTL` is absent from
`src/` (mesh.h line 478 is only its declaration). Spec sections 4.8 and 7:
binary STL is an 80-byte header, a 4-byte little-endian triangle count,
then 50 bytes per triangle; a short file or a triangle count disagreeing
with the remaining length is reported as failure with the mesh left
exactly in its prior state; on success the per-triangle vertex copies are
loaded and welded. Returns the success flag with the resulting mesh. -/
def Mesh.readSTL (m : Mesh) (bytes : List ℕ) : Bool × Mesh :=
  if bytes.length < 84 then (false, m)
  else if (bytes.drop 84).length ≠ 50 * leNat ((bytes.drop 80).take 4) then (false, m)
  else
    let n := leNat ((bytes.drop 80).take 4)
    (true, Mesh.mergeVerts
      { verts := stlVerts (bytes.drop 84) n,
        norms := [],
        tris := (List.range n).map fun i => ⟨![3 * i, 3 * i + 1, 3 * i + 2]⟩ })

/-- A concrete triangle for witnesses. -/
def t0 : Tri := ⟨![0, 1, 2]⟩

/-- A concrete vertex list for witnesses. -/
def vts0 : List Pnt := [⟨0, 0, 0⟩, ⟨1, 0, 0⟩, ⟨0, 1, 0⟩]

/-- A concrete one-triangle mesh for the smoothing witness. -/
def mesh1 : Mesh := ⟨[⟨0, 0, 0⟩, ⟨3, 0, 0⟩, ⟨0, 3, 0⟩], [], [⟨![0, 1, 2]⟩]⟩

/-- A concrete eight-vertex mesh for the cube-triangle witness. -/
def mesh8 : Mesh := ⟨List.replicate 8 pzero, [], []⟩

/-- A concrete mesh for the STL witness. -/
def mesh0 : Mesh := ⟨[⟨5, 5, 5⟩], [], [⟨![0, 0, 0]⟩]⟩

lemma vmult_neg_one (v : Vec) : vmult (-1) v = vneg v := by
  simp [vmult, vneg]

lemma normSq_vneg (v : Vec) : normSq (vneg v) = normSq v := by
  unfold normSq vneg
  ring_nf

lemma vlen_vneg (v : Vec) : vlen (vneg v) = vlen v := by
  unfold vlen
  rw [normSq_vneg]

lemma vnormalize_vneg (v : Vec) : vnormalize (vneg v) = rvNeg (vnormalize v) := by
  unfold vnormalize rvNeg
  rw [vlen_vneg]
  ext <;> simp [vneg, neg_div]

lemma cross_cyclic (p1 p2 p3 : Pnt) :
    vcross (vdiff p1 p3) (vdiff p2 p3) = vcross (vdiff p3 p2) (vdiff p1 p2) := by
  ext <;> simp [vcross, vdiff] <;> ring

lemma cross_reverse (p1 p2 p3 : Pnt) :
    vcross (vdiff p3 p2) (vdiff p1 p2) = vneg (vcross (vdiff p1 p2) (vdiff p3 p2)) := by
  ext <;> simp [vcross, vdiff, vneg] <;> ring

lemma vneg_vneg (v : Vec) : vneg (vneg v) = v := by
  ext <;> simp [vneg]

lemma candAt_cyclic (p1 p2 p3 : Pnt) : candAt p2 p3 p1 = candAt p1 p2 p3 := by
  unfold candAt
  rw [vmult_neg_one, vmult_neg_one, cross_cyclic]

lemma candAt_reverse (p1 p2 p3 : Pnt) : candAt p3 p2 p1 = rvNeg (candAt p1 p2 p3) := by
  unfold candAt
  rw [vmult_neg_one, vmult_neg_one, cross_reverse p1 p2 p3, vneg_vneg,
    vnormalize_vneg]

lemma triRot_v (t : Tri) :
    (triRot t).v 0 = t.v 1 ∧ (triRot t).v 1 = t.v 2 ∧ (triRot t).v 2 = t.v 0 :=
  ⟨rfl, rfl, rfl⟩

lemma triRev_v (t : Tri) :
    (triRev t).v 0 = t.v 2 ∧ (triRev t).v 1 = t.v 1 ∧ (triRev t).v 2 = t.v 0 :=
  ⟨rfl, rfl, rfl⟩

/-- C1: for every triangle whose three indices are in bounds of the vertex
list, the candidate face normal computed by `Triangle::deriveNormal` equals
the normalization of the negated cross product `(p3-p2) × (p1-p2)` of the
positions of the triangle's vertices, exactly the spec's formula. -/
theorem spec_c1_deriveNormal_formula (t : Tri) (vts : List Pnt)
    (h0 : t.v 0 < vts.length) (h1 : t.v 1 < vts.length) (h2 : t.v 2 < vts.length) :
    deriveCandidate t vts =
      specNormal (vts.getD (t.v 0) pzero) (vts.getD (t.v 1) pzero)
        (vts.getD (t.v 2) pzero) := by
  unfold deriveCandidate candAt specNormal
  rw [vmult_neg_one]

/-- Witness for C1 at a concrete in-bounds triangle. -/
theorem spec_c1_witness :
    (t0.v 0 < vts0.length ∧ t0.v 1 < vts0.length ∧ t0.v 2 < vts0.length) ∧
    deriveCandidate t0 vts0 =
      specNormal (vts0.getD (t0.v 0) pzero) (vts0.getD (t0.v 1) pzero)
        (vts0.getD (t0.v 2) pzero) :=
  ⟨⟨by decide, by decide, by decide⟩,
    spec_c1_deriveNormal_formula t0 vts0 (by decide) (by decide) (by decide)⟩

/-- C2: the candidate face normal of `Triangle::deriveNormal` is unchanged
under cyclic rotation of the triangle's vertex indices and is negated when
the winding is reversed. -/
theorem spec_c2_winding_invariance (t : Tri) (vts : List Pnt) :
    deriveCandidate (triRot t) vts = deriveCandidate t vts ∧
    deriveCandidate (triRev t) vts = rvNeg (deriveCandidate t vts) := by
  constructor
  · unfold deriveCandidate
    rw [(triRot_v t).1, (triRot_v t).2.1, (triRot_v t).2.2]
    exact candAt_cyclic _ _ _
  · unfold deriveCandidate
    rw [(triRev_v t).1, (triRev_v t).2.1, (triRev_v t).2.2]
    exact candAt_reverse _ _ _

/-- C8: `Triangle::deriveNormal` either leaves the normals list unchanged
or appends the candidate normal, and appends only when no entry of the
list is tolerance-equal to it; hence a pairwise-distinct normals list
stays pairwise distinct. -/
theorem spec_c8_normals_distinct (t : Tri) (normals : List RVec) (vts : List Pnt) :
    (deriveNormal t normals vts = normals ∨
      (deriveNormal t normals vts = normals ++ [deriveCandidate t vts] ∧
        ∀ n ∈ normals, ¬ rvecEq n (deriveCandidate t vts))) ∧
    (List.Pairwise (fun a b => ¬ rvecEq a b) normals →
      List.Pairwise (fun a b => ¬ rvecEq a b) (deriveNormal t normals vts)) := by
  classical
  unfold deriveNormal
  by_cases h : ∃ n ∈ normals, rvecEq n (deriveCandidate t vts)
  · rw [if_pos h]
    exact ⟨Or.inl rfl, fun hp => hp⟩
  · rw [if_neg h]
    push_neg at h
    refine ⟨Or.inr ⟨rfl, h⟩, fun hp => ?_⟩
    rw [List.pairwise_append]
    refine ⟨hp, List.pairwise_singleton _ _, ?_⟩
    intro a ha b hb
    rw [List.mem_singleton] at hb
    subst hb
    exact h a ha

/-- Witness for C8 at a concrete pairwise-distinct (empty) normals list. -/
theorem spec_c8_witness :
    List.Pairwise (fun a b => ¬ rvecEq a b) ([] : List RVec) ∧
    List.Pairwise (fun a b => ¬ rvecEq a b) (deriveNormal t0 [] vts0) :=
  ⟨List.Pairwise.nil, (spec_c8_normals_distinct t0 [] vts0).2 List.Pairwise.nil⟩

/-- C10: `Mesh::empty` is true exactly when the vertex list is empty,
independently of the triangle list: a mesh with a nonempty triangle list
and no vertices is reported empty. -/
theorem spec_c10_empty_iff :
    (∀ m : Mesh, m.empty = true ↔ m.verts = []) ∧
    (Mesh.mk [] [] [⟨![1, 2, 3]⟩]).empty = true := by
  constructor
  · intro m
    simp [Mesh.empty, List.isEmpty_iff]
  · rfl

/-- C9: `Mesh::setCubeTriangles` installs exactly 12 triangles, all of
whose vertex indices lie in `1..8`; index 0 is never referenced, index 8
is referenced, and on a mesh with 8 vertices that reference is out of the
vertex-list bounds. -/
theorem spec_c9_cube_indices (m : Mesh) :
    (m.setCubeTriangles).tris.length = 12 ∧
    (∀ t ∈ (m.setCubeTriangles).tris, ∀ j : Fin 3, 1 ≤ t.v j ∧ t.v j ≤ 8) ∧
    (∀ t ∈ (m.setCubeTriangles).tris, ∀ j : Fin 3, t.v j ≠ 0) ∧
    (∃ t ∈ (m.setCubeTriangles).tris, ∃ j : Fin 3, t.v j = 8) ∧
    (m.verts.length = 8 →
      ∃ t ∈ (m.setCubeTriangles).tris, ∃ j : Fin 3,
        ¬ t.v j < (m.setCubeTriangles).verts.length) := by
  have hv : (m.setCubeTriangles).verts = m.verts := rfl
  have ht : (m.setCubeTriangles).tris = cubeTris := rfl
  rw [ht, hv]
  refine ⟨by decide, by decide, by decide, by decide, ?_⟩
  intro h8
  rw [h8]
  decide

/-- Witness for C9 at a concrete eight-vertex mesh. -/
theorem spec_c9_witness :
    mesh8.verts.length = 8 ∧
    (∃ t ∈ (mesh8.setCubeTriangles).tris, ∃ j : Fin 3,
      ¬ t.v j < (mesh8.setCubeTriangles).verts.length) :=
  ⟨by decide, (spec_c9_cube_indices mesh8).2.2.2.2 (by decide)⟩

lemma firstMatch_eq_none (l : List Pnt) (p : Pnt) :
    firstMatch l p = none ↔ ∀ q ∈ l, ¬ pntEq q p := by
  induction l with
  | nil => simp [firstMatch]
  | cons q rest ih =>
    by_cases h : pntEq q p
    · simp [firstMatch, h]
    · simp [firstMatch, h, ih]

lemma weldStep_some (acc : List Pnt × List ℕ) (p : Pnt) (j : ℕ)
    (h : firstMatch acc.1 p = some j) : weldStep acc p = (acc.1, acc.2 ++ [j]) := by
  unfold weldStep
  rw [h]

lemma weldStep_none (acc : List Pnt × List ℕ) (p : Pnt)
    (h : firstMatch acc.1 p = none) :
    weldStep acc p = (acc.1 ++ [p], acc.2 ++ [acc.1.length]) := by
  unfold weldStep
  rw [h]

lemma weld_foldl_len (vs : List Pnt) :
    ∀ acc : List Pnt × List ℕ,
      (vs.foldl weldStep acc).1.length ≤ acc.1.length + vs.length := by
  induction vs with
  | nil => intro acc; simp
  | cons p rest ih =>
    intro acc
    rw [List.foldl_cons]
    have h1 := ih (weldStep acc p)
    have h2 : (weldStep acc p).1.length ≤ acc.1.length + 1 := by
      rcases h : firstMatch acc.1 p with _ | j
      · rw [weldStep_none acc p h]
        simp
      · rw [weldStep_some acc p j h]
        simp
    simp only [List.length_cons]
    omega

lemma weld_foldl_sep (vs : List Pnt) :
    ∀ acc : List Pnt × List ℕ,
      acc.1.Pairwise (fun q p => ¬ pntEq q p) →
      ((vs.foldl weldStep acc).1).Pairwise (fun q p => ¬ pntEq q p) := by
  induction vs with
  | nil => intro acc h; simpa using h
  | cons p rest ih =>
    intro acc hacc
    rw [List.foldl_cons]
    apply ih
    rcases h : firstMatch acc.1 p with _ | j
    · rw [weldStep_none acc p h]
      rw [List.pairwise_append]
      refine ⟨hacc, List.pairwise_singleton _ _, ?_⟩
      intro a ha b hb
      rw [List.mem_singleton] at hb
      subst hb
      exact (firstMatch_eq_none _ _).mp h a ha
    · rw [weldStep_some acc p j h]
      exact hacc

lemma weld_foldl_of_sep (vs : List Pnt) :
    ∀ (kept : List Pnt) (ms : List ℕ),
      (kept ++ vs).Pairwise (fun q p => ¬ pntEq q p) →
      (vs.foldl weldStep (kept, ms)).1 = kept ++ vs := by
  induction vs with
  | nil => intro kept ms h; simp
  | cons p rest ih =>
    intro kept ms hsep
    rw [List.foldl_cons]
    have hnone : firstMatch kept p = none := by
      rw [firstMatch_eq_none]
      intro q hq
      exact (List.pairwise_append.mp hsep).2.2 q hq p (by simp)
    have hassoc : (kept ++ [p]) ++ rest = kept ++ p :: rest := by simp
    rw [weldStep_none (kept, ms) p hnone]
    rw [ih (kept ++ [p]) (ms ++ [kept.length]) (by rw [hassoc]; exact hsep), hassoc]

lemma weld_sep (vs : List Pnt) :
    ((weld vs).1).Pairwise (fun q p => ¬ pntEq q p) :=
  weld_foldl_sep vs ([], []) (by simp)

lemma weld_of_sep (vs : List Pnt)
    (h : vs.Pairwise (fun q p => ¬ pntEq q p)) : (weld vs).1 = vs := by
  have := weld_foldl_of_sep vs [] [] (by simpa using h)
  simpa [weld] using this

/-- C3: welding never increases the vertex count and never changes the
triangle count, and applying `mergeVerts` twice yields the same vertex and
triangle counts as applying it once. -/
theorem spec_c3_mergeVerts_counts (m : Mesh) :
    m.mergeVerts.verts.length ≤ m.verts.length ∧
    m.mergeVerts.tris.length = m.tris.length ∧
    m.mergeVerts.mergeVerts.verts.length = m.mergeVerts.verts.length ∧
    m.mergeVerts.mergeVerts.tris.length = m.mergeVerts.tris.length := by
  refine ⟨?_, ?_, ?_, ?_⟩
  · have := weld_foldl_len m.verts ([], [])
    simpa [Mesh.mergeVerts, weld] using this
  · simp [Mesh.mergeVerts]
  · show (weld (weld m.verts).1).1.length = _
    rw [weld_of_sep (weld m.verts).1 (weld_sep m.verts)]
    rfl
  · simp [Mesh.mergeVerts]

/-- C4: `Mesh::manifoldValidity` returns true iff every (triangle, edge)
traversal of the mesh lies on an undirected edge with exactly two incident
traversals, exactly one of which runs in the opposite direction; any edge
with one or three-or-more incidences, or with two same-direction
incidences, makes it return false. -/
theorem spec_c4_manifold_iff (m : Mesh) :
    m.manifoldValidity = true ↔
      ∀ e ∈ dirEdges m, incidences m e = 2 ∧ oppIncidences m e = 1 := by
  unfold Mesh.manifoldValidity
  rw [List.all_eq_true]
  constructor
  · intro h e he
    simpa using h e he
  · intro h e he
    simpa using h e he

set_option maxRecDepth 10000 in
unseal Rat.add Rat.sub Rat.mul Rat.inv in
/-- C6: marching cubes on the 3x3x3 volume whose centre cell alone is
occupied, followed by welding, yields exactly 12 triangles forming a
closed two-manifold surface with no vertex referenced by zero triangles. -/
theorem spec_c6_single_cell_cube :
    (Mesh.marchingCubes vox3).mergeVerts.tris.length = 12 ∧
    (Mesh.marchingCubes vox3).mergeVerts.manifoldValidity = true ∧
    (∀ i < (Mesh.marchingCubes vox3).mergeVerts.verts.length,
      ∃ t ∈ (Mesh.marchingCubes vox3).mergeVerts.tris, t.vertexFound i = true) := by
  decide

/-- C7: `Mesh::readSTL` reports failure exactly on a short file or a
triangle count disagreeing with the remaining length, and on failure the
mesh state is exactly what it was before the call. -/
theorem spec_c7_readSTL_failure (m : Mesh) (bytes : List ℕ) :
    ((m.readSTL bytes).1 = false ↔
      (bytes.length < 84 ∨
        (bytes.drop 84).length ≠ 50 * leNat ((bytes.drop 80).take 4))) ∧
    ((m.readSTL bytes).1 = false → (m.readSTL bytes).2 = m) := by
  unfold Mesh.readSTL
  by_cases h1 : bytes.length < 84
  · rw [if_pos h1]
    exact ⟨⟨fun _ => Or.inl h1, fun _ => rfl⟩, fun _ => rfl⟩
  · rw [if_neg h1]
    by_cases h2 : (bytes.drop 84).length ≠ 50 * leNat ((bytes.drop 80).take 4)
    · rw [if_pos h2]
      exact ⟨⟨fun _ => Or.inr h2, fun _ => rfl⟩, fun _ => rfl⟩
    · rw [if_neg h2]
      refine ⟨⟨fun hf => ?_, fun hor => ?_⟩, fun hf => ?_⟩
      · simp at hf
      · rcases hor with h | h
        · exact absurd h h1
        · exact absurd h h2
      · simp at hf

/-- Witness for C7 at a concrete truncated input. -/
theorem spec_c7_witness :
    (mesh0.readSTL []).1 = false ∧ (mesh0.readSTL []).2 = mesh0 :=
  ⟨by decide, (spec_c7_readSTL_failure mesh0 []).2 (by decide)⟩

lemma getD_map_range (f : ℕ → Pnt) (n i : ℕ) (h : i < n) :
    ((List.range n).map f).getD i pzero = f i := by
  rw [List.getD_eq_getElem?_getD, List.getElem?_map, List.getElem?_range h]
  rfl

lemma padd_zero_smul (p c : Pnt) : padd p (psmul 0 (psub c p)) = p := by
  ext <;> simp [padd, psmul, psub]

lemma padd_one_smul (p c : Pnt) : padd p (psmul 1 (psub c p)) = c := by
  ext <;> simp [padd, psmul, psub]

lemma smoothStep_zero (m : Mesh) : smoothStep 0 m = m := by
  obtain ⟨vs, ns, ts⟩ := m
  unfold smoothStep
  congr 1
  apply List.ext_getElem
  · simp
  · intro i h1 h2
    have hlen : i < vs.length := by simpa using h2
    simp only [List.getElem_map, List.getElem_range]
    rw [padd_zero_smul, List.getD_eq_getElem?_getD, List.getElem?_eq_getElem hlen]
    rfl

lemma smoothStep_tris (rate : ℚ) (m : Mesh) : (smoothStep rate m).tris = m.tris :=
  rfl

lemma smoothStep_len (rate : ℚ) (m : Mesh) :
    (smoothStep rate m).verts.length = m.verts.length := by
  simp [smoothStep]

lemma laplacian_zero_rate (iter : ℕ) :
    ∀ m : Mesh, m.laplacianSmooth iter 0 = m := by
  induction iter with
  | zero => intro m; rfl
  | succ n ih =>
    intro m
    show (smoothStep 0 m).laplacianSmooth n 0 = m
    rw [smoothStep_zero]
    exact ih m

lemma laplacian_shape (iter : ℕ) :
    ∀ (m : Mesh) (rate : ℚ),
      (m.laplacianSmooth iter rate).tris = m.tris ∧
      (m.laplacianSmooth iter rate).verts.length = m.verts.length := by
  induction iter with
  | zero => intro m rate; exact ⟨rfl, rfl⟩
  | succ n ih =>
    intro m rate
    have h := ih (smoothStep rate m) rate
    refine ⟨?_, ?_⟩
    · show ((smoothStep rate m).laplacianSmooth n rate).tris = m.tris
      rw [h.1, smoothStep_tris]
    · show ((smoothStep rate m).laplacianSmooth n rate).verts.length = m.verts.length
      rw [h.2, smoothStep_len]

/-- C5: Laplacian smoothing with rate 0 leaves every vertex position
unchanged for any iteration count; with rate 1 and one iteration each
vertex with at least one edge-connected neighbour moves exactly to the
centroid of its neighbours computed from the pre-iteration positions; and
for every rate and iteration count the triangle list and the vertex count
are unchanged. -/
theorem spec_c5_laplacian :
    (∀ (m : Mesh) (iter : ℕ), (m.laplacianSmooth iter 0).verts = m.verts) ∧
    (∀ (m : Mesh) (i : ℕ), i < m.verts.length → nbrs m i ≠ [] →
      (m.laplacianSmooth 1 1).verts.getD i pzero = centroid m.verts (nbrs m i)) ∧
    (∀ (m : Mesh) (iter : ℕ) (rate : ℚ),
      (m.laplacianSmooth iter rate).tris = m.tris ∧
      (m.laplacianSmooth iter rate).verts.length = m.verts.length) := by
  refine ⟨?_, ?_, ?_⟩
  · intro m iter
    rw [laplacian_zero_rate iter m]
  · intro m i hlt _
    show (smoothStep 1 m).verts.getD i pzero = centroid m.verts (nbrs m i)
    unfold smoothStep
    rw [getD_map_range _ _ _ hlt, padd_one_smul]
  · intro m iter rate
    exact laplacian_shape iter m rate

/-- Witness for C5 at a concrete one-triangle mesh with a neighboured
vertex. -/
theorem spec_c5_witness :
    (0 < mesh1.verts.length ∧ nbrs mesh1 0 ≠ []) ∧
    (mesh1.laplacianSmooth 1 1).verts.getD 0 pzero =
      centroid mesh1.verts (nbrs mesh1 0) :=
  ⟨⟨by decide, by decide⟩, spec_c5_laplacian.2.1 mesh1 0 (by decide) (by decide)⟩
